import Mathlib

/-!
Verification of the `luigipipes` pipeline library.

The library composes one `Source` (producer), an ordered list of `Filter`s
and an ordered list of `Sink`s (consumers).  `Pipeline::run` iterates the
source; an item is dropped when `self.filters.iter().any(|f| !f.filter(&item))`
holds, otherwise every sink's `save` is called in order with `?`-propagation
of the first error.  The provided `Source` impl for `Vec<T>` is `pop()`
(remove-last-first).

The embedding below models a filter as `α → Bool` (`Filter::filter`), a sink
as `α → Except ε Unit` (`Sink::save`), and instruments the run loop with an
explicit trace of observable events (items pulled, filters evaluated, sinks
invoked) so that ordering and short-circuit properties can be stated.
-/

namespace LuigiPipes

/-- One observable event of a pipeline run: an item pulled from the source,
one filter evaluated against an item (with its decision), or one sink's
`save` invoked on an item.  Indices are positions in the configured
filter/sink sequences. -/
inductive Event (α : Type) where
  | pull (item : α)
  | filt (idx : Nat) (item : α) (keep : Bool)
  | save (idx : Nat) (item : α)
deriving Repr, DecidableEq

/-- The filter stage of one loop iteration.  Mirrors
`self.filters.iter().any(|f| !f.filter(&item))` from `Pipeline::run`:
filters are consulted left to right and evaluation stops at the first one
returning `false` (drop).  Returns the trace of filter evaluations and the
surviving decision (`true` = kept, i.e. `!any(drop)`); `idx` is the position
of the first filter in the whole sequence. -/
def filterEval (filters : List (α → Bool)) (item : α) (idx : Nat) :
    List (Event α) × Bool :=
  match filters with
  | [] => ([], true)
  | f :: rest =>
    if f item then
      let r := filterEval rest item (idx + 1)
      (Event.filt idx item true :: r.1, r.2)
    else
      ([Event.filt idx item false], false)

/-- The persisting stage of one loop iteration.  Mirrors
`for sink in &self.sinks { sink.save(&item)?; }` from `Pipeline::run`:
sinks are invoked in order; the first error stops the loop and is returned.
Returns the trace of sink invocations (the failing invocation included) and
the first error, if any. -/
def saveEval (sinks : List (α → Except ε Unit)) (item : α) (idx : Nat) :
    List (Event α) × Option ε :=
  match sinks with
  | [] => ([], none)
  | s :: rest =>
    match s item with
    | Except.ok _ =>
      let r := saveEval rest item (idx + 1)
      (Event.save idx item :: r.1, r.2)
    | Except.error e => ([Event.save idx item], some e)

/-- One full iteration of the run loop for one pulled item: the filter stage,
then — only when every filter kept the item — the persisting stage. -/
def runItem (filters : List (α → Bool)) (sinks : List (α → Except ε Unit))
    (item : α) : List (Event α) × Option ε :=
  let f := filterEval filters item 0
  if f.2 then
    let s := saveEval sinks item 0
    (Event.pull item :: f.1 ++ s.1, s.2)
  else
    (Event.pull item :: f.1, none)

/-- `Pipeline::run` over the sequence of items the source yields, in yield
order: `for item in self.source { ... }`.  Stops with `Except.error e` at the
first sink failure, returns `Except.ok ()` when the source is exhausted. -/
def runList (filters : List (α → Bool)) (sinks : List (α → Except ε Unit)) :
    List α → List (Event α) × Except ε Unit
  | [] => ([], Except.ok ())
  | item :: rest =>
    let r := runItem filters sinks item
    match r.2 with
    | some e => (r.1, Except.error e)
    | none =>
      let t := runList filters sinks rest
      (r.1 ++ t.1, t.2)

/-- The provided `Source` impl for `Vec<T>`: `fn next(&mut self) { self.pop() }`.
`pop` removes and returns the last element; on an empty vector it returns
`none` and leaves the vector unchanged. -/
def pop (v : List α) : Option α × List α :=
  match v.getLast? with
  | none => (none, v)
  | some x => (some x, v.dropLast)

/-- The state and result after `n + 1` successive `pop` calls starting
from `v` (index `0` is the first call). -/
def popIter (n : Nat) (v : List α) : Option α × List α :=
  match n with
  | 0 => pop v
  | m + 1 => popIter m (pop v).2

/-- The full sequence of items the `Vec` source yields before exhaustion:
iterate `pop` until it returns `none`. -/
def drain (v : List α) : List α :=
  match h : v.getLast? with
  | none => []
  | some x => x :: drain v.dropLast
termination_by v.length
decreasing_by
  have hv : v ≠ [] := by
    intro hv
    subst hv
    simp at h
  have hp : 0 < v.length := List.length_pos.mpr hv
  simp only [List.length_dropLast]
  omega

/-- `BuilderError` from `pipeline.rs`: the single configuration error,
raised when no source was set (the spec calls it `MissingProducer`). -/
inductive BuilderError where
  | NoSource
deriving Repr, DecidableEq

/-- `Pipeline<T>`: one source (of state type `σ`), the ordered sinks and
the ordered filters. -/
structure Pipeline (σ α ε : Type) where
  source : σ
  sinks : List (α → Except ε Unit)
  filters : List (α → Bool)

/-- `PipelineBuilder<T>`: an optional source plus growable sink and filter
sequences. -/
structure PipelineBuilder (σ α ε : Type) where
  source : Option σ
  sinks : List (α → Except ε Unit)
  filters : List (α → Bool)

/-- `PipelineBuilder::new`: empty builder. -/
def PipelineBuilder.new : PipelineBuilder σ α ε :=
  ⟨none, [], []⟩

/-- `PipelineBuilder::add_source`: `self.source = Some(source)` — replaces
any previously set source, silently. -/
def PipelineBuilder.add_source (b : PipelineBuilder σ α ε) (s : σ) :
    PipelineBuilder σ α ε :=
  { b with source := some s }

/-- `PipelineBuilder::add_sink`: `self.sinks.push(sink)` — appends at the
end. -/
def PipelineBuilder.add_sink (b : PipelineBuilder σ α ε)
    (s : α → Except ε Unit) : PipelineBuilder σ α ε :=
  { b with sinks := b.sinks ++ [s] }

/-- `PipelineBuilder::add_filter`: `self.filters.push(filter)` — appends at
the end. -/
def PipelineBuilder.add_filter (b : PipelineBuilder σ α ε)
    (f : α → Bool) : PipelineBuilder σ α ε :=
  { b with filters := b.filters ++ [f] }

/-- `PipelineBuilder::build`: fails with `BuilderError::NoSource` when no
source was ever set, otherwise transfers the accumulated parts into a
`Pipeline`. -/
def PipelineBuilder.build (b : PipelineBuilder σ α ε) :
    Except BuilderError (Pipeline σ α ε) :=
  match b.source with
  | none => Except.error BuilderError.NoSource
  | some s => Except.ok ⟨s, b.sinks, b.filters⟩

/-- `Pipeline::run` for a pipeline whose source is the provided in-memory
`Vec` adapter: the `for item in self.source` loop pulls with `pop` until
exhaustion, so the loop body runs over `drain source`. -/
def Pipeline.run (p : Pipeline (List α) α ε) : List (Event α) × Except ε Unit :=
  runList p.filters p.sinks (drain p.source)

/-- The sink invocations recorded in a trace, in order: (sink index, item). -/
def saveEvents (es : List (Event α)) : List (Nat × α) :=
  es.filterMap fun e =>
    match e with
    | Event.save i x => some (i, x)
    | _ => none

/-- The items the sink at index `i` was handed, in order — the recorded
sequence of a recording consumer at that position. -/
def savedBy (i : Nat) (es : List (Event α)) : List α :=
  es.filterMap fun e =>
    match e with
    | Event.save j x => if j = i then some x else none
    | _ => none

/-- The items pulled from the source, in order. -/
def pulls (es : List (Event α)) : List α :=
  es.filterMap fun e =>
    match e with
    | Event.pull x => some x
    | _ => none

/-- The indices of the filters evaluated, in evaluation order. -/
def filtIdxs (es : List (Event α)) : List Nat :=
  es.filterMap fun e =>
    match e with
    | Event.filt i _ _ => some i
    | _ => none

/-- The items of `items` that survive the whole filter sequence. -/
def survivors (filters : List (α → Bool)) (items : List α) : List α :=
  items.filter fun x => (filterEval filters x 0).2

end LuigiPipes

namespace LuigiPipes

theorem drain_concat (xs : List α) (x : α) :
    drain (xs ++ [x]) = x :: drain xs := by
  rw [drain]
  split
  · rename_i heq
    simp [List.getLast?_concat] at heq
  · rename_i y heq
    rw [List.getLast?_concat] at heq
    cases heq
    rw [List.dropLast_concat]

theorem drain_eq_reverse (v : List α) : drain v = v.reverse := by
  induction v using List.reverseRecOn with
  | nil =>
    rw [drain]
    split
    · rfl
    · rename_i y heq
      simp at heq
  | append_singleton xs x ih =>
    rw [drain_concat, ih, List.reverse_append]
    rfl

theorem filterEval_kept (filters : List (α → Bool)) (item : α) (idx : Nat) :
    (filterEval filters item idx).2 = filters.all fun f => f item := by
  induction filters generalizing idx with
  | nil => rfl
  | cons f rest ih =>
    simp only [filterEval, List.all_cons]
    cases hf : f item <;> simp [hf, ih]

theorem filtIdxs_filterEval (filters : List (α → Bool)) (item : α) (idx : Nat) :
    filtIdxs (filterEval filters item idx).1 =
      List.range' idx (min (filters.findIdx (fun f => !(f item)) + 1) filters.length) := by
  induction filters generalizing idx with
  | nil => rfl
  | cons f rest ih =>
    cases hf : f item with
    | false =>
      simp [filterEval, hf, filtIdxs, List.findIdx_cons]
    | true =>
      simp only [filterEval, hf, if_pos]
      have h1 : filtIdxs (Event.filt idx item true :: (filterEval rest item (idx + 1)).1) =
          idx :: filtIdxs (filterEval rest item (idx + 1)).1 := by
        simp [filtIdxs]
      rw [h1, ih]
      rw [List.findIdx_cons]
      simp only [hf, Bool.not_true, cond_false]
      have hgen : ∀ a b : Nat, (a + 1 + 1) ⊓ (b + 1) = ((a + 1) ⊓ b) + 1 := by
        intro a b
        omega
      have hmin : (List.findIdx (fun f => !f item) rest + 1 + 1) ⊓ (f :: rest).length
          = ((List.findIdx (fun f => !f item) rest + 1) ⊓ rest.length) + 1 := by
        simp only [List.length_cons]
        exact hgen _ _
      rw [hmin, List.range'_succ]

theorem saveEvents_append (a b : List (Event α)) :
    saveEvents (a ++ b) = saveEvents a ++ saveEvents b := by
  simp [saveEvents, List.filterMap_append]

theorem savedBy_append (i : Nat) (a b : List (Event α)) :
    savedBy i (a ++ b) = savedBy i a ++ savedBy i b := by
  simp [savedBy, List.filterMap_append]

theorem pulls_append (a b : List (Event α)) :
    pulls (a ++ b) = pulls a ++ pulls b := by
  simp [pulls, List.filterMap_append]

theorem saveEvents_filterEval (filters : List (α → Bool)) (item : α) (idx : Nat) :
    saveEvents (filterEval filters item idx).1 = [] := by
  induction filters generalizing idx with
  | nil => rfl
  | cons f rest ih =>
    simp only [filterEval]
    cases hf : f item
    · simp [saveEvents]
    · simpa [saveEvents] using ih (idx + 1)

theorem pulls_filterEval (filters : List (α → Bool)) (item : α) (idx : Nat) :
    pulls (filterEval filters item idx).1 = [] := by
  induction filters generalizing idx with
  | nil => rfl
  | cons f rest ih =>
    simp only [filterEval]
    cases hf : f item
    · simp [pulls]
    · simpa [pulls] using ih (idx + 1)

theorem savedBy_filterEval (i : Nat) (filters : List (α → Bool)) (item : α) (idx : Nat) :
    savedBy i (filterEval filters item idx).1 = [] := by
  induction filters generalizing idx with
  | nil => rfl
  | cons f rest ih =>
    simp only [filterEval]
    cases hf : f item
    · simp [savedBy]
    · simpa [savedBy] using ih (idx + 1)

theorem pulls_saveEval (sinks : List (α → Except ε Unit)) (item : α) (idx : Nat) :
    pulls (saveEval sinks item idx).1 = [] := by
  induction sinks generalizing idx with
  | nil => rfl
  | cons s rest ih =>
    simp only [saveEval]
    cases hs : s item
    · simp [pulls]
    · simpa [pulls] using ih (idx + 1)

theorem saveEval_ok (sinks : List (α → Except ε Unit)) (item : α) (idx : Nat)
    (hok : ∀ s ∈ sinks, s item = Except.ok ()) :
    saveEval sinks item idx =
      ((List.range' idx sinks.length).map fun i => Event.save i item, none) := by
  induction sinks generalizing idx with
  | nil => rfl
  | cons s rest ih =>
    have hs : s item = Except.ok () := hok s (List.mem_cons_self s rest)
    simp only [saveEval, hs]
    rw [ih (idx + 1) fun t ht => hok t (List.mem_cons_of_mem s ht)]
    simp [List.range'_succ]

theorem saveEval_fail (s1 s2 : List (α → Except ε Unit)) (bad : α → Except ε Unit)
    (item : α) (e : ε) (idx : Nat)
    (hs1 : ∀ s ∈ s1, s item = Except.ok ())
    (hbad : bad item = Except.error e) :
    saveEval (s1 ++ bad :: s2) item idx =
      ((List.range' idx (s1.length + 1)).map fun i => Event.save i item, some e) := by
  induction s1 generalizing idx with
  | nil =>
    simp only [List.nil_append, saveEval, hbad, List.length_nil]
    simp [List.range'_succ]
  | cons s rest ih =>
    have hs : s item = Except.ok () := hs1 s (List.mem_cons_self s rest)
    simp only [List.cons_append, saveEval, hs]
    rw [show rest.append (bad :: s2) = rest ++ bad :: s2 from rfl,
      ih (idx + 1) fun t ht => hs1 t (List.mem_cons_of_mem s ht)]
    simp [List.range'_succ]

theorem savedBy_single_save (i j : Nat) (x : α) :
    savedBy i [Event.save j x] = if j = i then [x] else [] := by
  simp only [savedBy, List.filterMap]
  split
  · simp_all
  · simp_all

theorem savedBy_range'_save (i : Nat) (item : α) (n idx : Nat) :
    savedBy i ((List.range' idx n).map fun j => Event.save j item) =
      if idx ≤ i ∧ i < idx + n then [item] else [] := by
  induction n generalizing idx with
  | zero =>
    rw [if_neg (by omega)]
    rfl
  | succ m ih =>
    rw [List.range'_succ, List.map_cons]
    rw [show (Event.save idx item ::
          (List.range' (idx + 1) m).map fun j => Event.save j item)
        = [Event.save idx item]
          ++ (List.range' (idx + 1) m).map fun j => Event.save j item from rfl]
    rw [savedBy_append, ih (idx + 1), savedBy_single_save]
    by_cases h1 : idx = i
    · subst h1
      rw [if_pos rfl, if_neg (by omega), if_pos (by omega)]
      rfl
    · rw [if_neg h1]
      by_cases h2 : idx + 1 ≤ i ∧ i < idx + 1 + m
      · rw [if_pos h2, if_pos (by omega)]
        rfl
      · rw [if_neg h2, if_neg (by omega)]
        rfl

theorem pulls_cons_pull (x : α) (es : List (Event α)) :
    pulls (Event.pull x :: es) = x :: pulls es := by
  simp [pulls]

theorem saveEvents_cons_pull (x : α) (es : List (Event α)) :
    saveEvents (Event.pull x :: es) = saveEvents es := by
  simp [saveEvents]

theorem savedBy_cons_pull (i : Nat) (x : α) (es : List (Event α)) :
    savedBy i (Event.pull x :: es) = savedBy i es := by
  simp [savedBy]

theorem saveEvents_map_save (l : List Nat) (x : α) :
    saveEvents (l.map fun j => Event.save j x) = l.map fun j => (j, x) := by
  induction l with
  | nil => rfl
  | cons j rest ih =>
    simp only [List.map_cons, saveEvents, List.filterMap_cons]
    simpa [saveEvents] using ih

theorem pulls_runItem (filters : List (α → Bool)) (sinks : List (α → Except ε Unit))
    (item : α) :
    pulls (runItem filters sinks item).1 = [item] := by
  simp only [runItem]
  split
  · dsimp only
    rw [pulls_append, pulls_cons_pull, pulls_filterEval, pulls_saveEval]
    rfl
  · dsimp only
    rw [pulls_cons_pull, pulls_filterEval]

theorem pulls_flatten_runItem (filters : List (α → Bool))
    (sinks : List (α → Except ε Unit)) (pre : List α) :
    pulls ((pre.map fun x => (runItem filters sinks x).1).flatten) = pre := by
  induction pre with
  | nil => rfl
  | cons x rest ih =>
    simp only [List.map_cons, List.flatten_cons]
    rw [pulls_append, pulls_runItem, ih]
    rfl

theorem runList_append_of_ok (filters : List (α → Bool))
    (sinks : List (α → Except ε Unit)) (pre post : List α)
    (hpre : ∀ x ∈ pre, (runItem filters sinks x).2 = none) :
    runList filters sinks (pre ++ post) =
      ((pre.map fun x => (runItem filters sinks x).1).flatten
         ++ (runList filters sinks post).1,
       (runList filters sinks post).2) := by
  induction pre with
  | nil => simp [runList]
  | cons x rest ih =>
    have hx : (runItem filters sinks x).2 = none := hpre x (List.mem_cons_self x rest)
    simp only [List.cons_append, runList, hx]
    rw [show (rest.append post) = rest ++ post from rfl,
      ih fun t ht => hpre t (List.mem_cons_of_mem x ht)]
    simp

theorem pop_fst (v : List α) : (pop v).1 = v.getLast? := by
  simp only [pop]
  split
  · rename_i h
    exact h.symm
  · rename_i x h
    exact h.symm

end LuigiPipes

namespace LuigiPipes

/-- C1: for every item pulled during a run, the filters are evaluated in
configured (append) order and evaluation short-circuits at the first filter
that returns drop: the evaluated filter indices are exactly `0, 1, ...` up to
and including the first dropping filter (all of them when every filter
keeps).  The item survives exactly when every filter keeps it, a dropped
item causes no sink invocation at all in that iteration, and a kept item's
sink invocations are exactly those of the persisting stage. -/
theorem run_filters_in_order_short_circuit (filters : List (α → Bool)) (sinks : List (α → Except ε Unit))
    (item : α) :
    filtIdxs (filterEval filters item 0).1 =
      List.range (min (List.findIdx (fun f => !(f item)) filters + 1) filters.length)
    ∧ ((filterEval filters item 0).2 = filters.all fun f => f item)
    ∧ ((filterEval filters item 0).2 = false →
        saveEvents (runItem filters sinks item).1 = [])
    ∧ ((filterEval filters item 0).2 = true →
        saveEvents (runItem filters sinks item).1 =
          saveEvents (saveEval sinks item 0).1) := by
  refine ⟨?_, filterEval_kept filters item 0, ?_, ?_⟩
  · rw [filtIdxs_filterEval, List.range_eq_range']
  · intro hk
    simp only [runItem, hk]
    rw [if_neg (by simp)]
    rw [saveEvents_cons_pull, saveEvents_filterEval]
  · intro hk
    simp only [runItem, hk, if_true]
    rw [saveEvents_append, saveEvents_cons_pull, saveEvents_filterEval]
    rfl

/-- Witness for C1 at a concrete input: with filters `[x < 3, drop, keep]`
item `2` is dropped by the second filter and no sink is invoked. -/
theorem run_filters_in_order_short_circuit_witness :
    (filterEval [fun x => decide (x < 3), fun _ => false, fun _ => true] (2 : Nat) 0).2
        = false
    ∧ saveEvents (runItem [fun x => decide (x < 3), fun _ => false, fun _ => true]
        ([fun _ => Except.ok ()] : List (Nat → Except Nat Unit)) 2).1 = [] := by
  refine ⟨rfl, ?_⟩
  exact (run_filters_in_order_short_circuit [fun x => decide (x < 3), fun _ => false, fun _ => true]
    ([fun _ => Except.ok ()] : List (Nat → Except Nat Unit)) 2).2.2.1 rfl

/-- C2: when some sink's `save` fails for item `k` (prefix `s1` of sinks
succeeds on `k`, `bad` returns `Except.error e`), the run stops immediately
and returns that same underlying error `e`: the whole trace is the traces
of the items before `k` followed by item `k`'s iteration, nothing after `k`
is pulled from the source, and the sink invocations for `k` are exactly the
sinks up to and including the failing one (indices `0 .. s1.length`) — no
sink configured after the failing one runs for `k`. -/
theorem consumer_failure_aborts_run (filters : List (α → Bool))
    (s1 s2 : List (α → Except ε Unit)) (bad : α → Except ε Unit) (e : ε)
    (pre post : List α) (k : α)
    (hpre : ∀ x ∈ pre, (runItem filters (s1 ++ bad :: s2) x).2 = none)
    (hkept : (filterEval filters k 0).2 = true)
    (hs1 : ∀ s ∈ s1, s k = Except.ok ())
    (hbad : bad k = Except.error e) :
    runList filters (s1 ++ bad :: s2) (pre ++ k :: post) =
      ((pre.map fun x => (runItem filters (s1 ++ bad :: s2) x).1).flatten
         ++ (runItem filters (s1 ++ bad :: s2) k).1,
       Except.error e)
    ∧ pulls (runList filters (s1 ++ bad :: s2) (pre ++ k :: post)).1 = pre ++ [k]
    ∧ saveEvents (runItem filters (s1 ++ bad :: s2) k).1 =
        (List.range (s1.length + 1)).map fun i => (i, k) := by
  have hsave := saveEval_fail s1 s2 bad k e 0 hs1 hbad
  have hitem2 : (runItem filters (s1 ++ bad :: s2) k).2 = some e := by
    simp only [runItem, hkept, if_true]
    rw [hsave]
  have hrlk : runList filters (s1 ++ bad :: s2) (k :: post) =
      ((runItem filters (s1 ++ bad :: s2) k).1, Except.error e) := by
    simp only [runList, hitem2]
  have hmain := runList_append_of_ok filters (s1 ++ bad :: s2) pre (k :: post) hpre
  rw [hrlk] at hmain
  refine ⟨hmain, ?_, ?_⟩
  · rw [hmain]
    show pulls (_ ++ _) = _
    rw [pulls_append, pulls_flatten_runItem, pulls_runItem]
  · simp only [runItem, hkept, if_true]
    rw [saveEvents_append, saveEvents_cons_pull, saveEvents_filterEval, hsave]
    rw [show ((List.range' 0 (s1.length + 1)).map fun i => Event.save i k,
        (some e : Option ε)).1
      = (List.range' 0 (s1.length + 1)).map fun i => Event.save i k from rfl]
    rw [saveEvents_map_save, List.range_eq_range']
    rfl

/-- Witness for C2 at a concrete input: one ok sink, one sink failing on
item `2` with error `7`, one more ok sink; items `[1, 2, 3]`.  The run
returns `Except.error 7` and pulls only `[1, 2]`. -/
theorem consumer_failure_aborts_run_witness :
    (runList ([] : List (Nat → Bool))
      [fun _ => Except.ok (), fun x => if x = 2 then Except.error 7 else Except.ok (),
       fun _ => Except.ok ()] [1, 2, 3]).2 = Except.error 7
    ∧ pulls (runList ([] : List (Nat → Bool))
      [fun _ => Except.ok (), fun x => if x = 2 then Except.error 7 else Except.ok (),
       fun _ => Except.ok ()] [1, 2, 3]).1 = [1, 2] := by
  have h := consumer_failure_aborts_run ([] : List (Nat → Bool))
    [fun _ => Except.ok ()] [fun _ => Except.ok ()]
    (fun x => if x = 2 then Except.error 7 else Except.ok ()) 7 [1] [3] 2
    (by intro x hx; rcases List.mem_singleton.mp hx with rfl; rfl)
    rfl
    (by intro s hs; rcases List.mem_singleton.mp hs with rfl; rfl)
    rfl
  constructor
  · have := congrArg Prod.snd h.1
    exact this
  · exact h.2.1

/-- C3: whenever no sink fails on any item handed to it (every item that
survives the filters is saved without error by the whole sink stage), the
run terminates and returns `Except.ok ()`: exhaustion of the source is the
success terminal condition and is never reported as an error. -/
theorem producer_exhaustion_returns_ok (filters : List (α → Bool)) (sinks : List (α → Except ε Unit))
    (items : List α)
    (h : ∀ x ∈ items, (filterEval filters x 0).2 = true →
        (saveEval sinks x 0).2 = none) :
    (runList filters sinks items).2 = Except.ok () := by
  induction items with
  | nil => rfl
  | cons x rest ih =>
    have hx : (runItem filters sinks x).2 = none := by
      simp only [runItem]
      split
      · exact h x (List.mem_cons_self x rest) ‹_›
      · rfl
    simp only [runList, hx]
    exact ih fun t ht ht2 => h t (List.mem_cons_of_mem x ht) ht2

/-- Witness for C3 at a concrete input: an even-only filter and an ok sink
over items `[1, 2, 3]` give an `Except.ok ()` run. -/
theorem producer_exhaustion_returns_ok_witness :
    (runList [fun x => decide (x % 2 = 0)]
      ([fun _ => Except.ok ()] : List (Nat → Except Nat Unit)) [1, 2, 3]).2
      = Except.ok () := by
  exact producer_exhaustion_returns_ok _ _ _ (by decide)

/-- C4: `build` on a builder without a source fails with the
`BuilderError.NoSource` configuration error (the spec's `MissingProducer`),
regardless of the accumulated filters and sinks; when a source was set,
`build` succeeds and the assembly owns exactly that source and the
accumulated sink and filter sequences. -/
theorem build_requires_source (b : PipelineBuilder σ α ε) :
    (b.source = none → b.build = Except.error BuilderError.NoSource)
    ∧ ∀ s, b.source = some s →
        b.build = Except.ok ⟨s, b.sinks, b.filters⟩ := by
  constructor
  · intro h
    simp [PipelineBuilder.build, h]
  · intro s h
    simp [PipelineBuilder.build, h]

/-- Witness for C4 at concrete builders: a builder with one filter and one
sink but no source fails with `NoSource`; after `add_source [1, 2]` the
build succeeds with exactly those parts. -/
theorem build_requires_source_witness :
    ((PipelineBuilder.new.add_filter fun _ => true).add_sink
        (fun _ => Except.ok ()) : PipelineBuilder (List Nat) Nat Nat).build
      = Except.error BuilderError.NoSource
    ∧ (((PipelineBuilder.new.add_filter fun _ => true).add_sink
        (fun _ => Except.ok ())).add_source [1, 2]
          : PipelineBuilder (List Nat) Nat Nat).build
      = Except.ok ⟨[1, 2], [fun _ => Except.ok ()], [fun _ => true]⟩ := by
  constructor
  · exact (build_requires_source _).1 rfl
  · exact (build_requires_source _).2 [1, 2] rfl

theorem savedBy_runList_all_ok (filters : List (α → Bool)) (sinks : List (α → Except ε Unit))
    (items : List α)
    (hkeep : ∀ f ∈ filters, ∀ x ∈ items, f x = true)
    (hok : ∀ s ∈ sinks, ∀ x ∈ items, s x = Except.ok ())
    (i : Nat) (hi : i < sinks.length) :
    savedBy i (runList filters sinks items).1 = items := by
  induction items with
  | nil => rfl
  | cons x rest ih =>
    have hkx : (filterEval filters x 0).2 = true := by
      rw [filterEval_kept]
      exact List.all_eq_true.mpr fun f hf => hkeep f hf x (List.mem_cons_self x rest)
    have hsx := saveEval_ok sinks x 0 fun s hs => hok s hs x (List.mem_cons_self x rest)
    have h2 : (runItem filters sinks x).2 = none := by
      simp only [runItem, hkx, if_true]
      rw [hsx]
    have h1 : (runItem filters sinks x).1 =
        (Event.pull x :: (filterEval filters x 0).1)
          ++ (List.range' 0 sinks.length).map fun j => Event.save j x := by
      simp only [runItem, hkx, if_true]
      rw [hsx]
    have hr : runList filters sinks (x :: rest) =
        ((runItem filters sinks x).1 ++ (runList filters sinks rest).1,
         (runList filters sinks rest).2) := by
      simp only [runList, h2]
    rw [hr]
    show savedBy i (_ ++ _) = _
    rw [savedBy_append, h1, savedBy_append, savedBy_cons_pull, savedBy_filterEval,
      savedBy_range'_save, if_pos (by omega)]
    rw [ih (fun f hf x2 hx2 => hkeep f hf x2 (List.mem_cons_of_mem x hx2))
      (fun s hs x2 hx2 => hok s hs x2 (List.mem_cons_of_mem x hx2))]
    rfl

/-- C5 as stated is false on the code: it quantifies over every consumer
configuration, but with sinks `[always-fail, recorder]` and items `[1]`,
item `1` is never handed to the recorder (sink index 1), so "each yielded
item is handed to every configured consumer exactly once" fails. -/
theorem all_keep_delivery_counterexample :
    ¬ ∀ i < 2, savedBy i (runList ([] : List (Nat → Bool))
        [fun _ => Except.error (0 : Nat), fun _ => Except.ok ()] [1]).1 = [1] := by
  intro h
  exact absurd (h 1 (by omega)) (by decide)

/-- C5 (amended): for every non-empty item sequence, every all-keep filter
set, and sinks none of which fails on the yielded items, each yielded item
is handed to every configured sink exactly once, and items reach each sink
in the order the source yielded them: the recorded sequence at every sink
index is exactly the yielded sequence. -/
theorem all_keep_delivers_each_item_once (filters : List (α → Bool)) (sinks : List (α → Except ε Unit))
    (items : List α)
    (hne : items ≠ [])
    (hkeep : ∀ f ∈ filters, ∀ x ∈ items, f x = true)
    (hok : ∀ s ∈ sinks, ∀ x ∈ items, s x = Except.ok ()) :
    ∀ i < sinks.length, savedBy i (runList filters sinks items).1 = items :=
  fun i hi => savedBy_runList_all_ok filters sinks items hkeep hok i hi

/-- Witness for amended C5 at a concrete input: one always-keep filter, two
ok sinks, items `[1, 2]`; sink 0 records `[1, 2]`. -/
theorem all_keep_delivers_each_item_once_witness :
    savedBy 0 (runList [fun _ => (true : Bool)]
      ([fun _ => Except.ok (), fun _ => Except.ok ()] : List (Nat → Except Nat Unit))
      [1, 2]).1 = [1, 2] := by
  refine all_keep_delivers_each_item_once _ _ _ (by decide) (by decide) ?_ 0 (by decide)
  intro s hs x hx
  rcases List.mem_cons.mp hs with rfl | hs2
  · rfl
  · rcases List.mem_singleton.mp hs2 with rfl
    rfl

/-- C6: the pipeline built from the in-memory `Vec` adapter over
`[1, 2, 3, 4, 5]` with an always-keep filter and one recording sink yields
items in remove-last-first order: the sink records exactly `[5, 4, 3, 2, 1]`
and the run reports success. -/
theorem inmemory_scenario_five_items :
    ∃ p : Pipeline (List Nat) Nat Nat,
      (((PipelineBuilder.new.add_source [1, 2, 3, 4, 5]).add_filter
          fun _ => true).add_sink fun _ => Except.ok ()).build = Except.ok p
      ∧ savedBy 0 p.run.1 = [5, 4, 3, 2, 1]
      ∧ p.run.2 = Except.ok () := by
  refine ⟨⟨[1, 2, 3, 4, 5], [fun _ => Except.ok ()], [fun _ => true]⟩, rfl, ?_, ?_⟩
  · show savedBy 0 (runList _ _ (drain [1, 2, 3, 4, 5])).1 = _
    rw [drain_eq_reverse]
    rfl
  · show (runList _ _ (drain [1, 2, 3, 4, 5])).2 = _
    rw [drain_eq_reverse]
    rfl

/-- C7: appending an additional filter never causes a previously dropped
item to survive: every item surviving the extended filter sequence also
survives the original sequence (monotonic narrowing). -/
theorem appending_filter_narrows_survivors (filters : List (α → Bool)) (g : α → Bool) (items : List α) :
    ∀ x ∈ survivors (filters ++ [g]) items, x ∈ survivors filters items := by
  intro x hx
  simp only [survivors, List.mem_filter] at hx ⊢
  refine ⟨hx.1, ?_⟩
  have h2 := hx.2
  rw [filterEval_kept] at h2 ⊢
  rw [List.all_append] at h2
  simp only [Bool.and_eq_true] at h2
  exact h2.1

/-- Witness for C7 at a concrete input: `2` survives `[even, < 3]` over
`[2, 4]`, hence survives `[even]`. -/
theorem appending_filter_narrows_survivors_witness :
    (2 : Nat) ∈ survivors [fun x => decide (x % 2 = 0)] [2, 4] := by
  exact appending_filter_narrows_survivors [fun x => decide (x % 2 = 0)] (fun x => decide (x < 3)) [2, 4] 2
    (by decide)

/-- C8: a pipeline with an empty filter sequence is observationally
identical to the same pipeline with a single always-keep filter: the same
sink invocations in the same order, the same items pulled, and the same
run result, for every sink configuration and item sequence. -/
theorem empty_filters_identity_law (sinks : List (α → Except ε Unit)) (items : List α) :
    saveEvents (runList [] sinks items).1 =
      saveEvents (runList [fun _ => true] sinks items).1
    ∧ pulls (runList [] sinks items).1 =
      pulls (runList [fun _ => true] sinks items).1
    ∧ (runList [] sinks items).2 = (runList [fun _ => true] sinks items).2 := by
  induction items with
  | nil => exact ⟨rfl, rfl, rfl⟩
  | cons x rest ih =>
    have h1 : runItem ([] : List (α → Bool)) sinks x =
        ((Event.pull x :: ([] : List (Event α))) ++ (saveEval sinks x 0).1,
         (saveEval sinks x 0).2) := rfl
    have h2 : runItem [fun _ => (true : Bool)] sinks x =
        ((Event.pull x :: [Event.filt 0 x true]) ++ (saveEval sinks x 0).1,
         (saveEval sinks x 0).2) := rfl
    cases hs : (saveEval sinks x 0).2 with
    | some e =>
      have r1 : runList ([] : List (α → Bool)) sinks (x :: rest) =
          ((runItem ([] : List (α → Bool)) sinks x).1, Except.error e) := by
        simp only [runList, h1, hs]
      have r2 : runList [fun _ => (true : Bool)] sinks (x :: rest) =
          ((runItem [fun _ => (true : Bool)] sinks x).1, Except.error e) := by
        simp only [runList, h2, hs]
      rw [r1, r2, h1, h2]
      refine ⟨?_, ?_, rfl⟩
      · show saveEvents (_ ++ _) = saveEvents (_ ++ _)
        rw [saveEvents_append, saveEvents_append, saveEvents_cons_pull,
          saveEvents_cons_pull]
        rfl
      · show pulls (_ ++ _) = pulls (_ ++ _)
        rw [pulls_append, pulls_append, pulls_cons_pull, pulls_cons_pull]
        rfl
    | none =>
      have r1 : runList ([] : List (α → Bool)) sinks (x :: rest) =
          ((runItem ([] : List (α → Bool)) sinks x).1
             ++ (runList ([] : List (α → Bool)) sinks rest).1,
           (runList ([] : List (α → Bool)) sinks rest).2) := by
        simp only [runList, h1, hs]
      have r2 : runList [fun _ => (true : Bool)] sinks (x :: rest) =
          ((runItem [fun _ => (true : Bool)] sinks x).1
             ++ (runList [fun _ => (true : Bool)] sinks rest).1,
           (runList [fun _ => (true : Bool)] sinks rest).2) := by
        simp only [runList, h2, hs]
      rw [r1, r2, h1, h2]
      refine ⟨?_, ?_, ih.2.2⟩
      · show saveEvents (_ ++ _) = saveEvents (_ ++ _)
        rw [saveEvents_append, saveEvents_append, saveEvents_append,
          saveEvents_append, saveEvents_cons_pull, saveEvents_cons_pull, ih.1]
        rfl
      · show pulls (_ ++ _) = pulls (_ ++ _)
        rw [pulls_append, pulls_append, pulls_append, pulls_append,
          pulls_cons_pull, pulls_cons_pull, ih.2.1]
        rfl

/-- C9: `add_source` sets the source, leaves the accumulated filter and sink
sequences unchanged, silently replaces any previously set source (setting
twice equals setting the last one), and `build` then uses exactly the last
source that was set. -/
theorem add_source_overwrites_silently (b : PipelineBuilder σ α ε) (s0 s : σ) :
    (b.add_source s).source = some s
    ∧ (b.add_source s).filters = b.filters
    ∧ (b.add_source s).sinks = b.sinks
    ∧ (b.add_source s0).add_source s = b.add_source s
    ∧ (b.add_source s).build = Except.ok ⟨s, b.sinks, b.filters⟩ :=
  ⟨rfl, rfl, rfl, rfl, rfl⟩

/-- C10: for the in-memory `Vec` source adapter, exhaustion is terminal:
once `pop` returns `none`, every subsequent call does too; a call yielding
`x` removes exactly that element (the popped vector followed by `x` is the
original); and draining yields each element of the collection exactly once,
in remove-last-first order, before exhausting. -/
theorem vec_source_exhaustion_terminal (v : List α) :
    ((pop v).1 = none → ∀ n, (popIter n v).1 = none)
    ∧ (∀ x w, pop v = (some x, w) → v = w ++ [x])
    ∧ drain v = v.reverse := by
  refine ⟨?_, ?_, drain_eq_reverse v⟩
  · intro h n
    have hv : v = [] := by
      rw [pop_fst] at h
      cases v with
      | nil => rfl
      | cons a l => simp at h
    subst hv
    induction n with
    | zero => rfl
    | succ m ih => exact ih
  · intro x w hp
    induction v using List.reverseRecOn with
    | nil =>
      exfalso
      simp only [pop] at hp
      simp at hp
    | append_singleton xs y ih =>
      simp only [pop, List.getLast?_concat, List.dropLast_concat] at hp
      cases hp
      rfl

/-- Witness for C10 at concrete inputs: after `pop []` returns `none` the
fourth call still returns `none`, and popping `[1, 2]` removes exactly
`2`. -/
theorem vec_source_exhaustion_terminal_witness :
    (popIter 3 ([] : List Nat)).1 = none ∧ [1, 2] = [1] ++ [2] := by
  constructor
  · exact (vec_source_exhaustion_terminal ([] : List Nat)).1 rfl 3
  · exact (vec_source_exhaustion_terminal [1, 2]).2.1 2 [1] rfl

end LuigiPipes
